import Mathlib

/-!
Verification of the rust-raknet reliability core against its specification.

The repository's `src/lib.rs` holds the crate documentation and the
integration tests; the implementation modules (`packet`, `arq`, `fragment`,
`socket`, `server`) are declared there (`mod packet;` …) but their sources are
not present in the tree.  The definitions below therefore model those modules
from the specification document, as indicated by their doc comments.
-/

namespace RakNet

/-- A byte is modelled as a natural number; well-formed bytes are `< 256`. -/
abbrev Bytes := List Nat

/-- Modelled from the spec: Codec wire primitive (missing module `datatype`):
unsigned 8-bit integer, written as one byte. -/
def writeU8 (n : Nat) : Bytes := [n % 256]

/-- Modelled from the spec: Codec wire primitive: unsigned 16-bit big-endian. -/
def writeU16 (n : Nat) : Bytes := [n / 256 % 256, n % 256]

/-- Modelled from the spec: Codec wire primitive: unsigned 24-bit big-endian. -/
def writeU24 (n : Nat) : Bytes := [n / 65536 % 256, n / 256 % 256, n % 256]

/-- Modelled from the spec: Codec wire primitive: unsigned 32-bit big-endian. -/
def writeU32 (n : Nat) : Bytes :=
  [n / 16777216 % 256, n / 65536 % 256, n / 256 % 256, n % 256]

/-- Modelled from the spec: Codec wire primitive: unsigned 64-bit big-endian. -/
def writeU64 (n : Nat) : Bytes :=
  [n / 72057594037927936 % 256, n / 281474976710656 % 256,
   n / 1099511627776 % 256, n / 4294967296 % 256,
   n / 16777216 % 256, n / 65536 % 256, n / 256 % 256, n % 256]

/-- Modelled from the spec: Codec wire primitive reader for u8;
fails with `Truncated` (modelled as `none`) on short input. -/
def readU8 : Bytes → Option (Nat × Bytes)
  | b :: r => some (b, r)
  | _ => none

/-- Modelled from the spec: Codec wire primitive reader for big-endian u16. -/
def readU16 : Bytes → Option (Nat × Bytes)
  | a :: b :: r => some (a * 256 + b, r)
  | _ => none

/-- Modelled from the spec: Codec wire primitive reader for big-endian u24. -/
def readU24 : Bytes → Option (Nat × Bytes)
  | a :: b :: c :: r => some (a * 65536 + b * 256 + c, r)
  | _ => none

/-- Modelled from the spec: Codec wire primitive reader for big-endian u32. -/
def readU32 : Bytes → Option (Nat × Bytes)
  | a :: b :: c :: d :: r => some (a * 16777216 + b * 65536 + c * 256 + d, r)
  | _ => none

/-- Modelled from the spec: Codec wire primitive reader for big-endian u64. -/
def readU64 : Bytes → Option (Nat × Bytes)
  | a :: b :: c :: d :: e :: f :: g :: h :: r =>
      some (a * 72057594037927936 + b * 281474976710656 +
            c * 1099511627776 + d * 4294967296 +
            e * 16777216 + f * 65536 + g * 256 + h, r)
  | _ => none

theorem readU8_writeU8 (n : Nat) (hn : n < 256) (r : Bytes) :
    readU8 (writeU8 n ++ r) = some (n, r) := by
  simp [writeU8, readU8, Nat.mod_eq_of_lt hn]

theorem readU16_writeU16 (n : Nat) (hn : n < 65536) (r : Bytes) :
    readU16 (writeU16 n ++ r) = some (n, r) := by
  simp only [writeU16, readU16, List.cons_append, List.nil_append,
    Option.some.injEq, Prod.mk.injEq]
  exact ⟨by omega, trivial⟩

theorem readU24_writeU24 (n : Nat) (hn : n < 16777216) (r : Bytes) :
    readU24 (writeU24 n ++ r) = some (n, r) := by
  simp only [writeU24, readU24, List.cons_append, List.nil_append,
    Option.some.injEq, Prod.mk.injEq]
  exact ⟨by omega, trivial⟩

theorem readU32_writeU32 (n : Nat) (hn : n < 4294967296) (r : Bytes) :
    readU32 (writeU32 n ++ r) = some (n, r) := by
  simp only [writeU32, readU32, List.cons_append, List.nil_append,
    Option.some.injEq, Prod.mk.injEq]
  exact ⟨by omega, trivial⟩

theorem readU64_writeU64 (n : Nat) (hn : n < 18446744073709551616) (r : Bytes) :
    readU64 (writeU64 n ++ r) = some (n, r) := by
  simp only [writeU64, readU64, List.cons_append, List.nil_append,
    Option.some.injEq, Prod.mk.injEq]
  exact ⟨by omega, trivial⟩

/-- Modelled from the spec: the fixed 16-byte RakNet magic constant
(missing module `packet`). -/
def magic : Bytes :=
  [0x00, 0xff, 0xff, 0x00, 0xfe, 0xfe, 0xfe, 0xfe,
   0xfd, 0xfd, 0xfd, 0xfd, 0x12, 0x34, 0x56, 0x78]

/-- Modelled from the spec: reading the magic fails (`BadMagic`, modelled as
`none`) unless the next 16 bytes equal the constant. -/
def readMagic (bs : Bytes) : Option Bytes :=
  if bs.take 16 = magic then some (bs.drop 16) else none

theorem readMagic_magic (r : Bytes) : readMagic (magic ++ r) = some r := by
  have h : magic.length = 16 := rfl
  rw [readMagic, ← h, List.take_left, List.drop_left, if_pos rfl]

/-- Modelled from the spec: read a fixed number of raw bytes (used for MTU
padding and length-prefixed strings). -/
def readBytesN (n : Nat) (bs : Bytes) : Option (Bytes × Bytes) :=
  if n ≤ bs.length then some (bs.take n, bs.drop n) else none

theorem readBytesN_append (l r : Bytes) :
    readBytesN l.length (l ++ r) = some (l, r) := by
  rw [readBytesN, if_pos (by simp), List.take_left, List.drop_left]

/-- Modelled from the spec: an IPv4 peer address; the codec encodes a 1-byte
family tag (4) followed by the four octets bitwise inverted and the port. -/
structure Addr where
  a : Nat
  b : Nat
  c : Nat
  d : Nat
  port : Nat
deriving DecidableEq, Repr

/-- Well-formedness of an address: octets are bytes, the port fits in 16 bits. -/
def Addr.WF (ad : Addr) : Prop :=
  ad.a < 256 ∧ ad.b < 256 ∧ ad.c < 256 ∧ ad.d < 256 ∧ ad.port < 65536

instance (ad : Addr) : Decidable ad.WF := by
  unfold Addr.WF; infer_instance

/-- Modelled from the spec: address encoding, family tag 4 then the octets
bitwise inverted per RakNet convention, then the big-endian port. -/
def writeAddr (ad : Addr) : Bytes :=
  writeU8 4 ++ writeU8 (255 - ad.a % 256) ++ writeU8 (255 - ad.b % 256) ++
  writeU8 (255 - ad.c % 256) ++ writeU8 (255 - ad.d % 256) ++ writeU16 ad.port

/-- Modelled from the spec: address decoding, inverse of `writeAddr`. -/
def readAddr : Bytes → Option (Addr × Bytes)
  | 4 :: a :: b :: c :: d :: rest =>
      match readU16 rest with
      | some (p, r) => some (⟨255 - a, 255 - b, 255 - c, 255 - d, p⟩, r)
      | none => none
  | _ => none

theorem readAddr_writeAddr (ad : Addr) (h : ad.WF) (r : Bytes) :
    readAddr (writeAddr ad ++ r) = some (ad, r) := by
  obtain ⟨ha, hb, hc, hd, hp⟩ := h
  obtain ⟨a, b, c, d, p⟩ := ad
  simp only [Addr.WF] at ha hb hc hd hp
  simp only [writeAddr, writeU8, writeU16, List.cons_append, List.nil_append,
    List.append_assoc]
  simp only [readAddr, readU16, Option.some.injEq, Prod.mk.injEq, Addr.mk.injEq]
  refine ⟨⟨by omega, by omega, by omega, by omega, by omega⟩, trivial⟩

/-- Modelled from the spec: write a fixed-length list of addresses
back to back (the 10 system addresses of ConnectionRequestAccepted). -/
def writeAddrs (l : List Addr) : Bytes := (l.map writeAddr).flatten

/-- Modelled from the spec: read `n` consecutive addresses. -/
def readAddrs : Nat → Bytes → Option (List Addr × Bytes)
  | 0, bs => some ([], bs)
  | n + 1, bs =>
      match readAddr bs with
      | some (ad, rest) =>
          match readAddrs n rest with
          | some (l, rest') => some (ad :: l, rest')
          | none => none
      | none => none

theorem readAddrs_writeAddrs (l : List Addr) (h : ∀ ad ∈ l, ad.WF) (r : Bytes) :
    readAddrs l.length (writeAddrs l ++ r) = some (l, r) := by
  induction l generalizing r with
  | nil => simp [writeAddrs, readAddrs]
  | cons ad tl ih =>
      have had : ad.WF := h ad (List.mem_cons_self ad tl)
      have htl : ∀ x ∈ tl, x.WF := fun x hx => h x (List.mem_cons_of_mem ad hx)
      simp only [writeAddrs, List.map_cons, List.flatten_cons, List.length_cons,
        List.append_assoc]
      rw [readAddrs, readAddr_writeAddr ad had]
      simp [show (tl.map writeAddr).flatten = writeAddrs tl from rfl, ih htl]

/-- The five reliability classes of the protocol (re-exported from the missing
module `arq` by `src/lib.rs`). -/
inductive Reliability where
  | unreliable
  | unreliableSequenced
  | reliable
  | reliableOrdered
  | reliableSequenced
deriving DecidableEq, Repr

/-- Modelled from the spec: reliable variants occupy a reliable-frame-index. -/
def Reliability.isReliable : Reliability → Bool
  | .reliable | .reliableOrdered | .reliableSequenced => true
  | _ => false

/-- Modelled from the spec: sequenced variants occupy a sequencing-index
within an ordering channel. -/
def Reliability.isSequenced : Reliability → Bool
  | .unreliableSequenced | .reliableSequenced => true
  | _ => false

/-- Modelled from the spec: ordered variants occupy an ordering-index within
an ordering channel. -/
def Reliability.isOrdered : Reliability → Bool
  | .reliableOrdered => true
  | _ => false

/-- Modelled from the spec: the 3-bit wire encoding of the reliability class,
stored in the top bits of the frame flag byte. -/
def Reliability.toNat : Reliability → Nat
  | .unreliable => 0
  | .unreliableSequenced => 1
  | .reliable => 2
  | .reliableOrdered => 3
  | .reliableSequenced => 4

/-- Modelled from the spec: decoding of the 3-bit reliability tag; values 5–7
fail with `UnsupportedId` (modelled as `none`). -/
def Reliability.ofNat? : Nat → Option Reliability
  | 0 => some .unreliable
  | 1 => some .unreliableSequenced
  | 2 => some .reliable
  | 3 => some .reliableOrdered
  | 4 => some .reliableSequenced
  | _ => none

theorem Reliability.ofNat_toNat (rel : Reliability) :
    Reliability.ofNat? rel.toNat = some rel := by
  cases rel <;> rfl

/-- Modelled from the spec: the split descriptor attached to fragment frames
(split-id 16-bit, split-count 32-bit, split-index 32-bit). -/
structure SplitInfo where
  count : Nat
  id : Nat
  idx : Nat
deriving DecidableEq, Repr

/-- Modelled from the spec: a frame, the unit placed inside a datagram
(missing modules `arq` and `packet`).  Optional fields are present exactly
when the reliability class demands them. -/
structure Frame where
  reliability : Reliability
  payload : Bytes
  reliableIndex : Option Nat
  sequenced : Option (Nat × Nat)
  ordered : Option (Nat × Nat)
  split : Option SplitInfo
deriving DecidableEq, Repr

/-- Well-formedness of a frame: the optional numbering fields are present
iff the reliability class uses them, and every field fits its wire width. -/
def Frame.WF (f : Frame) : Bool :=
  decide (f.payload.length < 65536) &&
  (f.reliableIndex.isSome == f.reliability.isReliable) &&
  (f.sequenced.isSome == f.reliability.isSequenced) &&
  (f.ordered.isSome == f.reliability.isOrdered) &&
  (match f.reliableIndex with
   | some i => decide (i < 16777216)
   | none => true) &&
  (match f.sequenced with
   | some (i, ch) => decide (i < 16777216) && decide (ch < 256)
   | none => true) &&
  (match f.ordered with
   | some (i, ch) => decide (i < 16777216) && decide (ch < 256)
   | none => true) &&
  (match f.split with
   | some s => decide (s.count < 4294967296) && decide (s.id < 65536) &&
       decide (s.idx < 4294967296)
   | none => true)

/-- Modelled from the spec: optional reliable-frame-index field (3 bytes). -/
def writeOptU24 : Option Nat → Bytes
  | some i => writeU24 i
  | none => []

/-- Modelled from the spec: optional index (3B) + ordering-channel (1B) pair. -/
def writeIdxCh : Option (Nat × Nat) → Bytes
  | some (i, ch) => writeU24 i ++ writeU8 ch
  | none => []

/-- Modelled from the spec: optional split descriptor,
split-count (4B) + split-id (2B) + split-index (4B). -/
def writeSplit : Option SplitInfo → Bytes
  | some s => writeU32 s.count ++ writeU16 s.id ++ writeU32 s.idx
  | none => []

/-- Modelled from the spec: conditionally read a 3-byte index field. -/
def readOptU24 (cond : Bool) (bs : Bytes) : Option (Option Nat × Bytes) :=
  if cond then
    match readU24 bs with
    | some (i, r) => some (some i, r)
    | none => none
  else some (none, bs)

/-- Modelled from the spec: conditionally read an index + channel pair. -/
def readIdxCh (cond : Bool) (bs : Bytes) : Option (Option (Nat × Nat) × Bytes) :=
  if cond then
    match readU24 bs with
    | some (i, r) =>
        match readU8 r with
        | some (ch, r') => some (some (i, ch), r')
        | none => none
    | none => none
  else some (none, bs)

/-- Modelled from the spec: conditionally read a split descriptor. -/
def readSplit (cond : Bool) (bs : Bytes) : Option (Option SplitInfo × Bytes) :=
  if cond then
    match readU32 bs with
    | some (cnt, r) =>
        match readU16 r with
        | some (sid, r') =>
            match readU32 r' with
            | some (sidx, r'') => some (some ⟨cnt, sid, sidx⟩, r'')
            | none => none
        | none => none
    | none => none
  else some (none, bs)

theorem readOptU24_write (o : Option Nat) (h : ∀ i ∈ o, i < 16777216)
    (r : Bytes) : readOptU24 o.isSome (writeOptU24 o ++ r) = some (o, r) := by
  cases o with
  | none => simp [readOptU24, writeOptU24]
  | some i =>
      simp [readOptU24, writeOptU24, readU24_writeU24 i (h i rfl) r]

theorem readIdxCh_write (o : Option (Nat × Nat))
    (h : ∀ p ∈ o, p.1 < 16777216 ∧ p.2 < 256) (r : Bytes) :
    readIdxCh o.isSome (writeIdxCh o ++ r) = some (o, r) := by
  cases o with
  | none => simp [readIdxCh, writeIdxCh]
  | some p =>
      obtain ⟨i, ch⟩ := p
      obtain ⟨hi, hch⟩ := h (i, ch) rfl
      simp [readIdxCh, writeIdxCh, readU24_writeU24 i hi,
        readU8_writeU8 ch hch]

theorem readSplit_false (bs : Bytes) : readSplit false bs = some (none, bs) :=
  rfl

theorem readSplit_true (s : SplitInfo)
    (h : s.count < 4294967296 ∧ s.id < 65536 ∧ s.idx < 4294967296)
    (r : Bytes) : readSplit true (writeSplit (some s) ++ r) = some (some s, r) := by
  obtain ⟨hc, hid, hidx⟩ := h
  simp [readSplit, writeSplit, readU32_writeU32 s.count hc,
    readU16_writeU16 s.id hid, readU32_writeU32 s.idx hidx]

/-- Modelled from the spec: frame encoding — a flag byte carrying the 3-bit
reliability tag and the split bit, a 2-byte payload length, the
reliability-dependent fields, the split descriptor, then the payload. -/
def writeFrame (f : Frame) : Bytes :=
  writeU8 (f.reliability.toNat * 32 + if f.split.isSome then 16 else 0) ++
  writeU16 f.payload.length ++
  writeOptU24 f.reliableIndex ++
  writeIdxCh f.sequenced ++
  writeIdxCh f.ordered ++
  writeSplit f.split ++
  f.payload

/-- Modelled from the spec: frame decoding, inverse of `writeFrame`; any
malformed header fails with `none`. -/
def readFrame (bs : Bytes) : Option (Frame × Bytes) :=
  match readU8 bs with
  | none => none
  | some (flag, bs1) =>
      match Reliability.ofNat? (flag / 32) with
      | none => none
      | some rel =>
          if flag % 32 == 0 || flag % 32 == 16 then
            match readU16 bs1 with
            | none => none
            | some (len, bs2) =>
                match readOptU24 rel.isReliable bs2 with
                | none => none
                | some (ri, bs3) =>
                    match readIdxCh rel.isSequenced bs3 with
                    | none => none
                    | some (sq, bs4) =>
                        match readIdxCh rel.isOrdered bs4 with
                        | none => none
                        | some (od, bs5) =>
                            match readSplit (flag % 32 == 16) bs5 with
                            | none => none
                            | some (sp, bs6) =>
                                match readBytesN len bs6 with
                                | none => none
                                | some (pl, bs7) =>
                                    some (⟨rel, pl, ri, sq, od, sp⟩, bs7)
          else none

theorem Reliability.toNat_le (rel : Reliability) : rel.toNat ≤ 4 := by
  cases rel <;> decide

theorem readFrame_writeFrame (f : Frame) (h : f.WF = true) (r : Bytes) :
    readFrame (writeFrame f ++ r) = some (f, r) := by
  obtain ⟨rel, pl, ri, sq, od, sp⟩ := f
  simp only [Frame.WF, Bool.and_eq_true, decide_eq_true_eq, beq_iff_eq] at h
  obtain ⟨⟨⟨⟨⟨⟨⟨hlen, hri⟩, hsq⟩, hod⟩, hriB⟩, hsqB⟩, hodB⟩, hspB⟩ := h
  have htn : rel.toNat ≤ 4 := rel.toNat_le
  have hriW : ∀ i ∈ ri, i < 16777216 := by
    intro i hi; cases ri with
    | none => cases hi
    | some j =>
        rw [Option.mem_def, Option.some.injEq] at hi
        subst hi; simpa using hriB
  have hsqW : ∀ p ∈ sq, p.1 < 16777216 ∧ p.2 < 256 := by
    intro p hp
    obtain ⟨p1, p2⟩ := p
    cases sq with
    | none => cases hp
    | some q =>
        rw [Option.mem_def, Option.some.injEq] at hp
        subst hp; simpa using hsqB
  have hodW : ∀ p ∈ od, p.1 < 16777216 ∧ p.2 < 256 := by
    intro p hp
    obtain ⟨p1, p2⟩ := p
    cases od with
    | none => cases hp
    | some q =>
        rw [Option.mem_def, Option.some.injEq] at hp
        subst hp; simpa using hodB
  have hspW : ∀ s ∈ sp,
      s.count < 4294967296 ∧ s.id < 65536 ∧ s.idx < 4294967296 := by
    intro s hs; cases sp with
    | none => cases hs
    | some t =>
        rw [Option.mem_def, Option.some.injEq] at hs
        subst hs
        simp only [Bool.and_eq_true, decide_eq_true_eq] at hspB
        exact ⟨hspB.1.1, hspB.1.2, hspB.2⟩
  cases sp with
  | none =>
      have h3 : rel.toNat * 32 + 0 < 256 := by omega
      have h1 : (rel.toNat * 32 + 0) / 32 = rel.toNat := by omega
      have h2 : (rel.toNat * 32 + 0) % 32 = 0 := by omega
      simp only [writeFrame, Option.isSome_none, Bool.false_eq_true, if_false,
        List.append_assoc]
      rw [readFrame, readU8_writeU8 _ h3]
      simp [h1, h2, Reliability.ofNat_toNat,
        readU16_writeU16 pl.length hlen, ← hri, ← hsq, ← hod,
        readOptU24_write ri hriW, readIdxCh_write sq hsqW,
        readIdxCh_write od hodW, readSplit_false, writeSplit,
        readBytesN_append]
  | some s =>
      have h3 : rel.toNat * 32 + 16 < 256 := by omega
      have h1 : (rel.toNat * 32 + 16) / 32 = rel.toNat := by omega
      have h2 : (rel.toNat * 32 + 16) % 32 = 16 := by omega
      have hspS := hspW s rfl
      simp only [writeFrame, Option.isSome_some, if_true, List.append_assoc]
      rw [readFrame, readU8_writeU8 _ h3]
      simp [h1, h2, Reliability.ofNat_toNat,
        readU16_writeU16 pl.length hlen, ← hri, ← hsq, ← hod,
        readOptU24_write ri hriW, readIdxCh_write sq hsqW,
        readIdxCh_write od hodW, readSplit_true s hspS,
        readBytesN_append]

/-- Modelled from the spec: one run of the run-length-encoded ACK/NACK range
set — a single-byte flag, then either one 24-bit value (singleton run) or the
24-bit minimum and maximum. -/
def writeRange (p : Nat × Nat) : Bytes :=
  if p.1 = p.2 then writeU8 1 ++ writeU24 p.1
  else writeU8 0 ++ writeU24 p.1 ++ writeU24 p.2

/-- Modelled from the spec: ACK/NACK payload, a 16-bit run count followed by
the runs. -/
def writeRanges (l : List (Nat × Nat)) : Bytes :=
  writeU16 l.length ++ (l.map writeRange).flatten

/-- Modelled from the spec: read one ACK/NACK run. -/
def readRange (bs : Bytes) : Option ((Nat × Nat) × Bytes) :=
  match readU8 bs with
  | some (1, r) =>
      match readU24 r with
      | some (v, r') => some ((v, v), r')
      | none => none
  | some (0, r) =>
      match readU24 r with
      | some (a, r') =>
          match readU24 r' with
          | some (b, r'') => some ((a, b), r'')
          | none => none
      | none => none
  | _ => none

/-- Modelled from the spec: read `n` consecutive ACK/NACK runs. -/
def readRanges : Nat → Bytes → Option (List (Nat × Nat) × Bytes)
  | 0, bs => some ([], bs)
  | n + 1, bs =>
      match readRange bs with
      | some (p, r) =>
          match readRanges n r with
          | some (l, r') => some (p :: l, r')
          | none => none
      | none => none

theorem readRange_writeRange (p : Nat × Nat)
    (h : p.1 < 16777216 ∧ p.2 < 16777216) (r : Bytes) :
    readRange (writeRange p ++ r) = some (p, r) := by
  obtain ⟨a, b⟩ := p
  obtain ⟨ha, hb⟩ := h
  by_cases hab : a = b
  · subst hab
    simp [writeRange, readRange, writeU8, readU8,
      readU24_writeU24 a ha]
  · simp only [writeRange, if_neg (by simpa using hab)]
    simp [readRange, writeU8, readU8, List.append_assoc,
      readU24_writeU24 a ha, readU24_writeU24 b hb]

theorem readRanges_writeRanges_aux (l : List (Nat × Nat))
    (h : ∀ p ∈ l, p.1 < 16777216 ∧ p.2 < 16777216) (r : Bytes) :
    readRanges l.length ((l.map writeRange).flatten ++ r) = some (l, r) := by
  induction l generalizing r with
  | nil => simp [readRanges]
  | cons p tl ih =>
      have hp := h p (List.mem_cons_self p tl)
      have htl : ∀ q ∈ tl, q.1 < 16777216 ∧ q.2 < 16777216 :=
        fun q hq => h q (List.mem_cons_of_mem p hq)
      simp only [List.map_cons, List.flatten_cons, List.length_cons,
        List.append_assoc]
      rw [readRanges, readRange_writeRange p hp]
      simp [ih htl]

/-- Modelled from the spec: the frames of a datagram are written back to
back after the 4-byte datagram header. -/
def writeFrames (l : List Frame) : Bytes := (l.map writeFrame).flatten

/-- Modelled from the spec: read frames until the datagram is exhausted;
`fuel` bounds the recursion (each frame consumes at least one byte). -/
def readFrames (fuel : Nat) (bs : Bytes) : Option (List Frame) :=
  match bs with
  | [] => some []
  | _ :: _ =>
      match fuel with
      | 0 => none
      | fuel + 1 =>
          match readFrame bs with
          | some (f, r) =>
              match readFrames fuel r with
              | some l => some (f :: l)
              | none => none
          | none => none

theorem readFrames_writeFrames (l : List Frame)
    (h : ∀ f ∈ l, f.WF = true) (fuel : Nat) (hfuel : l.length ≤ fuel) :
    readFrames fuel (writeFrames l) = some l := by
  induction l generalizing fuel with
  | nil => simp [writeFrames, readFrames]
  | cons f tl ih =>
      have hf : f.WF = true := h f (List.mem_cons_self f tl)
      have htl : ∀ g ∈ tl, g.WF = true :=
        fun g hg => h g (List.mem_cons_of_mem f hg)
      match fuel with
      | 0 => exact absurd hfuel (by simp)
      | fuel + 1 =>
          have hw : writeFrames (f :: tl) =
              (f.reliability.toNat * 32 +
                if f.split.isSome then 16 else 0) % 256 ::
              (writeU16 f.payload.length ++ writeOptU24 f.reliableIndex ++
               writeIdxCh f.sequenced ++ writeIdxCh f.ordered ++
               writeSplit f.split ++ f.payload ++ writeFrames tl) := by
            simp [writeFrames, writeFrame, writeU8, List.append_assoc]
          rw [hw, readFrames]
          have hw2 : readFrame ((f.reliability.toNat * 32 +
              if f.split.isSome then 16 else 0) % 256 ::
              (writeU16 f.payload.length ++ writeOptU24 f.reliableIndex ++
               writeIdxCh f.sequenced ++ writeIdxCh f.ordered ++
               writeSplit f.split ++ f.payload ++ writeFrames tl)) =
              some (f, writeFrames tl) := by
            have := readFrame_writeFrame f hf (writeFrames tl)
            simpa [writeFrame, writeU8, List.append_assoc] using this
          rw [hw2]
          simp [ih htl fuel (by simpa using Nat.le_of_succ_le_succ hfuel)]

/-- Modelled from the spec: the packet variants of the wire protocol
(missing module `packet`), identified by their first byte. -/
inductive Packet where
  | connectedPing (time : Nat)
  | unconnectedPing (time : Nat) (guid : Nat)
  | unconnectedPong (time : Nat) (guid : Nat) (motd : Bytes)
  | connectedPong (pingTime : Nat) (pongTime : Nat)
  | openConnectionRequest1 (protocolVersion : Nat) (mtuPadding : Nat)
  | openConnectionReply1 (guid : Nat) (mtu : Nat)
  | openConnectionRequest2 (serverAddress : Addr) (mtu : Nat) (guid : Nat)
  | openConnectionReply2 (guid : Nat) (clientAddress : Addr) (mtu : Nat)
  | connectionRequest (guid : Nat) (time : Nat) (security : Bool)
  | connectionRequestAccepted (clientAddress : Addr) (systemAddresses : List Addr)
      (requestTime : Nat) (time : Nat)
  | newIncomingConnection (serverAddress : Addr) (requestTime : Nat) (time : Nat)
  | disconnectionNotification
  | nack (ranges : List (Nat × Nat))
  | ack (ranges : List (Nat × Nat))
  | datagram (flags : Nat) (seq : Nat) (frames : List Frame)
deriving DecidableEq, Repr

/-- Modelled from the spec: packet encoding — every variant starts with its
identifying byte, then its fields in wire order. -/
def writePacket : Packet → Bytes
  | .connectedPing t => writeU8 0x00 ++ writeU64 t
  | .unconnectedPing t g => writeU8 0x01 ++ writeU64 t ++ magic ++ writeU64 g
  | .unconnectedPong t g motd =>
      writeU8 0x02 ++ writeU64 t ++ writeU64 g ++ magic ++
      writeU16 motd.length ++ motd
  | .connectedPong pt qt => writeU8 0x03 ++ writeU64 pt ++ writeU64 qt
  | .openConnectionRequest1 v pad =>
      writeU8 0x05 ++ magic ++ writeU8 v ++ List.replicate pad 0
  | .openConnectionReply1 g mtu => writeU8 0x06 ++ magic ++ writeU64 g ++ writeU16 mtu
  | .openConnectionRequest2 sa mtu g =>
      writeU8 0x07 ++ magic ++ writeAddr sa ++ writeU16 mtu ++ writeU64 g
  | .openConnectionReply2 g ca mtu =>
      writeU8 0x08 ++ magic ++ writeU64 g ++ writeAddr ca ++ writeU16 mtu
  | .connectionRequest g t sec =>
      writeU8 0x09 ++ writeU64 g ++ writeU64 t ++ writeU8 (if sec then 1 else 0)
  | .connectionRequestAccepted ca sys rt t =>
      writeU8 0x10 ++ writeAddr ca ++ writeAddrs sys ++ writeU64 rt ++ writeU64 t
  | .newIncomingConnection sa rt t =>
      writeU8 0x13 ++ writeAddr sa ++ writeU64 rt ++ writeU64 t
  | .disconnectionNotification => writeU8 0x15
  | .nack rs => writeU8 0xa0 ++ writeRanges rs
  | .ack rs => writeU8 0xc0 ++ writeRanges rs
  | .datagram fl seq frames => writeU8 fl ++ writeU24 seq ++ writeFrames frames

/-- Modelled from the spec: packet decoding, dispatching on the first byte;
valid datagrams occupy the flag range 0x80–0x8d.  Any leftover bytes, bad
magic or unknown id fail with `none`. -/
def readPacket (bs : Bytes) : Option Packet :=
  match readU8 bs with
  | none => none
  | some (b, rest) =>
      if 128 ≤ b ∧ b ≤ 141 then
        match readU24 rest with
        | some (seq, r) =>
            match readFrames r.length r with
            | some frames => some (.datagram b seq frames)
            | none => none
        | none => none
      else if b = 0x00 then
        match readU64 rest with
        | some (t, r) => if r = [] then some (.connectedPing t) else none
        | none => none
      else if b = 0x01 then
        match readU64 rest with
        | some (t, r1) =>
            match readMagic r1 with
            | some r2 =>
                match readU64 r2 with
                | some (g, r3) =>
                    if r3 = [] then some (.unconnectedPing t g) else none
                | none => none
            | none => none
        | none => none
      else if b = 0x02 then
        match readU64 rest with
        | some (t, r1) =>
            match readU64 r1 with
            | some (g, r2) =>
                match readMagic r2 with
                | some r3 =>
                    match readU16 r3 with
                    | some (len, r4) =>
                        match readBytesN len r4 with
                        | some (motd, r5) =>
                            if r5 = [] then some (.unconnectedPong t g motd)
                            else none
                        | none => none
                    | none => none
                | none => none
            | none => none
        | none => none
      else if b = 0x03 then
        match readU64 rest with
        | some (pt, r1) =>
            match readU64 r1 with
            | some (qt, r2) =>
                if r2 = [] then some (.connectedPong pt qt) else none
            | none => none
        | none => none
      else if b = 0x05 then
        match readMagic rest with
        | some r1 =>
            match readU8 r1 with
            | some (v, r2) => some (.openConnectionRequest1 v r2.length)
            | none => none
        | none => none
      else if b = 0x06 then
        match readMagic rest with
        | some r1 =>
            match readU64 r1 with
            | some (g, r2) =>
                match readU16 r2 with
                | some (mtu, r3) =>
                    if r3 = [] then some (.openConnectionReply1 g mtu) else none
                | none => none
            | none => none
        | none => none
      else if b = 0x07 then
        match readMagic rest with
        | some r1 =>
            match readAddr r1 with
            | some (sa, r2) =>
                match readU16 r2 with
                | some (mtu, r3) =>
                    match readU64 r3 with
                    | some (g, r4) =>
                        if r4 = [] then some (.openConnectionRequest2 sa mtu g)
                        else none
                    | none => none
                | none => none
            | none => none
        | none => none
      else if b = 0x08 then
        match readMagic rest with
        | some r1 =>
            match readU64 r1 with
            | some (g, r2) =>
                match readAddr r2 with
                | some (ca, r3) =>
                    match readU16 r3 with
                    | some (mtu, r4) =>
                        if r4 = [] then some (.openConnectionReply2 g ca mtu)
                        else none
                    | none => none
                | none => none
            | none => none
        | none => none
      else if b = 0x09 then
        match readU64 rest with
        | some (g, r1) =>
            match readU64 r1 with
            | some (t, r2) =>
                match readU8 r2 with
                | some (s, r3) =>
                    if r3 = [] then some (.connectionRequest g t (s == 1))
                    else none
                | none => none
            | none => none
        | none => none
      else if b = 0x10 then
        match readAddr rest with
        | some (ca, r1) =>
            match readAddrs 10 r1 with
            | some (sys, r2) =>
                if r2.length = 16 then
                  match readU64 r2 with
                  | some (rt, r3) =>
                      match readU64 r3 with
                      | some (t, r4) =>
                          if r4 = [] then
                            some (.connectionRequestAccepted ca sys rt t)
                          else none
                      | none => none
                  | none => none
                else
                  match readAddrs 10 r2 with
                  | some (sys2, r3) =>
                      match readU64 r3 with
                      | some (rt, r4) =>
                          match readU64 r4 with
                          | some (t, r5) =>
                              if r5 = [] then
                                some (.connectionRequestAccepted ca
                                  (sys ++ sys2) rt t)
                              else none
                          | none => none
                      | none => none
                  | none => none
            | none => none
        | none => none
      else if b = 0x13 then
        match readAddr rest with
        | some (sa, r1) =>
            match readU64 r1 with
            | some (rt, r2) =>
                match readU64 r2 with
                | some (t, r3) =>
                    if r3 = [] then some (.newIncomingConnection sa rt t)
                    else none
                | none => none
            | none => none
        | none => none
      else if b = 0x15 then
        if rest = [] then some .disconnectionNotification else none
      else if b = 0xa0 then
        match readU16 rest with
        | some (cnt, r1) =>
            match readRanges cnt r1 with
            | some (rs, r2) => if r2 = [] then some (.nack rs) else none
            | none => none
        | none => none
      else if b = 0xc0 then
        match readU16 rest with
        | some (cnt, r1) =>
            match readRanges cnt r1 with
            | some (rs, r2) => if r2 = [] then some (.ack rs) else none
            | none => none
        | none => none
      else none

/-- Well-formedness of a packet: every numeric field fits its wire width, a
datagram's flag byte lies in 0x80–0x8d, and ConnectionRequestAccepted
carries exactly 10 system addresses (the written form). -/
def Packet.WF : Packet → Bool
  | .connectedPing t => decide (t < 18446744073709551616)
  | .unconnectedPing t g =>
      decide (t < 18446744073709551616) && decide (g < 18446744073709551616)
  | .unconnectedPong t g motd =>
      decide (t < 18446744073709551616) && decide (g < 18446744073709551616) &&
      decide (motd.length < 65536)
  | .connectedPong pt qt =>
      decide (pt < 18446744073709551616) && decide (qt < 18446744073709551616)
  | .openConnectionRequest1 v _ => decide (v < 256)
  | .openConnectionReply1 g mtu =>
      decide (g < 18446744073709551616) && decide (mtu < 65536)
  | .openConnectionRequest2 sa mtu g =>
      decide sa.WF && decide (mtu < 65536) && decide (g < 18446744073709551616)
  | .openConnectionReply2 g ca mtu =>
      decide (g < 18446744073709551616) && decide ca.WF && decide (mtu < 65536)
  | .connectionRequest g t _ =>
      decide (g < 18446744073709551616) && decide (t < 18446744073709551616)
  | .connectionRequestAccepted ca sys rt t =>
      decide ca.WF && (sys.length == 10) && sys.all (fun a => decide a.WF) &&
      decide (rt < 18446744073709551616) && decide (t < 18446744073709551616)
  | .newIncomingConnection sa rt t =>
      decide sa.WF && decide (rt < 18446744073709551616) &&
      decide (t < 18446744073709551616)
  | .disconnectionNotification => true
  | .nack rs =>
      decide (rs.length < 65536) &&
      rs.all (fun p => decide (p.1 < 16777216) && decide (p.2 < 16777216))
  | .ack rs =>
      decide (rs.length < 65536) &&
      rs.all (fun p => decide (p.1 < 16777216) && decide (p.2 < 16777216))
  | .datagram fl seq frames =>
      decide (128 ≤ fl) && decide (fl ≤ 141) && decide (seq < 16777216) &&
      frames.all Frame.WF

theorem readU8_writeU8' (n : Nat) (hn : n < 256) :
    readU8 (writeU8 n) = some (n, []) := by
  simpa using readU8_writeU8 n hn []

theorem readU16_writeU16' (n : Nat) (hn : n < 65536) :
    readU16 (writeU16 n) = some (n, []) := by
  simpa using readU16_writeU16 n hn []

theorem readU64_writeU64' (n : Nat) (hn : n < 18446744073709551616) :
    readU64 (writeU64 n) = some (n, []) := by
  simpa using readU64_writeU64 n hn []

theorem readBytesN_self (l : Bytes) : readBytesN l.length l = some (l, []) := by
  simpa using readBytesN_append l []

theorem readRanges_writeRanges (l : List (Nat × Nat))
    (h : ∀ p ∈ l, p.1 < 16777216 ∧ p.2 < 16777216) :
    readRanges l.length ((l.map writeRange).flatten) = some (l, []) := by
  simpa using readRanges_writeRanges_aux l h []

theorem length_le_length_writeFrames (l : List Frame) :
    l.length ≤ (writeFrames l).length := by
  induction l with
  | nil => simp [writeFrames]
  | cons f tl ih =>
      have h1 : 1 ≤ (writeFrame f).length := by
        simp [writeFrame, writeU8]
      simp only [writeFrames, List.map_cons, List.flatten_cons,
        List.length_append, List.length_cons] at *
      omega

/-- C4: for every well-formed packet variant P of the wire protocol, decoding
the encoding of P yields P again byte-exactly: `decode (encode P) = P`. -/
theorem readPacket_writePacket (P : Packet) (h : P.WF = true) :
    readPacket (writePacket P) = some P := by
  cases P with
  | connectedPing t =>
      simp only [Packet.WF, decide_eq_true_eq] at h
      simp [writePacket, readPacket, writeU8, readU8, readU64_writeU64' t h]
  | unconnectedPing t g =>
      simp only [Packet.WF, Bool.and_eq_true, decide_eq_true_eq] at h
      obtain ⟨ht, hg⟩ := h
      simp [writePacket, readPacket, writeU8, readU8, List.append_assoc,
        readU64_writeU64 t ht, readMagic_magic, readU64_writeU64' g hg]
  | unconnectedPong t g motd =>
      simp only [Packet.WF, Bool.and_eq_true, decide_eq_true_eq] at h
      obtain ⟨⟨ht, hg⟩, hm⟩ := h
      simp [writePacket, readPacket, writeU8, readU8, List.append_assoc,
        readU64_writeU64 t ht, readU64_writeU64 g hg, readMagic_magic,
        readU16_writeU16 motd.length hm, readBytesN_self]
  | connectedPong pt qt =>
      simp only [Packet.WF, Bool.and_eq_true, decide_eq_true_eq] at h
      obtain ⟨hp, hq⟩ := h
      simp [writePacket, readPacket, writeU8, readU8, List.append_assoc,
        readU64_writeU64 pt hp, readU64_writeU64' qt hq]
  | openConnectionRequest1 v pad =>
      simp only [Packet.WF, decide_eq_true_eq] at h
      simp [writePacket, readPacket, writeU8, readU8, List.append_assoc,
        readMagic_magic, readU8_writeU8 v h, h]
  | openConnectionReply1 g mtu =>
      simp only [Packet.WF, Bool.and_eq_true, decide_eq_true_eq] at h
      obtain ⟨hg, hm⟩ := h
      simp [writePacket, readPacket, writeU8, readU8, List.append_assoc,
        readMagic_magic, readU64_writeU64 g hg, readU16_writeU16' mtu hm]
  | openConnectionRequest2 sa mtu g =>
      simp only [Packet.WF, Bool.and_eq_true, decide_eq_true_eq] at h
      obtain ⟨⟨hsa, hm⟩, hg⟩ := h
      simp [writePacket, readPacket, writeU8, readU8, List.append_assoc,
        readMagic_magic, readAddr_writeAddr sa hsa,
        readU16_writeU16 mtu hm, readU64_writeU64' g hg]
  | openConnectionReply2 g ca mtu =>
      simp only [Packet.WF, Bool.and_eq_true, decide_eq_true_eq] at h
      obtain ⟨⟨hg, hca⟩, hm⟩ := h
      simp [writePacket, readPacket, writeU8, readU8, List.append_assoc,
        readMagic_magic, readU64_writeU64 g hg,
        readAddr_writeAddr ca hca, readU16_writeU16' mtu hm]
  | connectionRequest g t sec =>
      simp only [Packet.WF, Bool.and_eq_true, decide_eq_true_eq] at h
      obtain ⟨hg, ht⟩ := h
      cases sec with
      | true =>
          simp [writePacket, readPacket, writeU8, readU8, List.append_assoc,
            readU64_writeU64 g hg, readU64_writeU64 t ht]
      | false =>
          simp [writePacket, readPacket, writeU8, readU8, List.append_assoc,
            readU64_writeU64 g hg, readU64_writeU64 t ht]
  | connectionRequestAccepted ca sys rt t =>
      simp only [Packet.WF, Bool.and_eq_true, decide_eq_true_eq, beq_iff_eq,
        List.all_eq_true] at h
      obtain ⟨⟨⟨⟨hca, hlen⟩, hsys⟩, hrt⟩, ht⟩ := h
      have hsys' : ∀ ad ∈ sys, ad.WF := by
        intro ad had; simpa using hsys ad had
      have h16 : (writeU64 rt ++ writeU64 t).length = 16 := by simp [writeU64]
      simp [writePacket, readPacket, writeU8, readU8, List.append_assoc,
        readAddr_writeAddr ca hca, ← hlen, readAddrs_writeAddrs sys hsys',
        h16, readU64_writeU64 rt hrt, readU64_writeU64' t ht]
  | newIncomingConnection sa rt t =>
      simp only [Packet.WF, Bool.and_eq_true, decide_eq_true_eq] at h
      obtain ⟨⟨hsa, hrt⟩, ht⟩ := h
      simp [writePacket, readPacket, writeU8, readU8, List.append_assoc,
        readAddr_writeAddr sa hsa, readU64_writeU64 rt hrt,
        readU64_writeU64' t ht]
  | disconnectionNotification =>
      simp [writePacket, readPacket, writeU8, readU8]
  | nack rs =>
      simp only [Packet.WF, Bool.and_eq_true, decide_eq_true_eq,
        List.all_eq_true] at h
      obtain ⟨hlen, hrs⟩ := h
      have hrs' : ∀ p ∈ rs, p.1 < 16777216 ∧ p.2 < 16777216 := by
        intro p hp
        have := hrs p hp
        simp only [Bool.and_eq_true, decide_eq_true_eq] at this
        exact this
      simp [writePacket, readPacket, writeRanges, writeU8, readU8,
        List.append_assoc, readU16_writeU16 rs.length hlen,
        readRanges_writeRanges rs hrs']
  | ack rs =>
      simp only [Packet.WF, Bool.and_eq_true, decide_eq_true_eq,
        List.all_eq_true] at h
      obtain ⟨hlen, hrs⟩ := h
      have hrs' : ∀ p ∈ rs, p.1 < 16777216 ∧ p.2 < 16777216 := by
        intro p hp
        have := hrs p hp
        simp only [Bool.and_eq_true, decide_eq_true_eq] at this
        exact this
      simp [writePacket, readPacket, writeRanges, writeU8, readU8,
        List.append_assoc, readU16_writeU16 rs.length hlen,
        readRanges_writeRanges rs hrs']
  | datagram fl seq frames =>
      simp only [Packet.WF, Bool.and_eq_true, decide_eq_true_eq,
        List.all_eq_true] at h
      obtain ⟨⟨⟨hlo, hhi⟩, hseq⟩, hfr⟩ := h
      have hmod : fl % 256 = fl := Nat.mod_eq_of_lt (by omega)
      simp only [writePacket, writeU8, List.cons_append, List.nil_append,
        List.append_assoc]
      rw [readPacket]
      simp only [readU8, hmod]
      rw [if_pos (⟨hlo, hhi⟩ : 128 ≤ fl ∧ fl ≤ 141)]
      simp [readU24_writeU24 seq hseq,
        readFrames_writeFrames frames hfr (writeFrames frames).length
          (length_le_length_writeFrames frames)]

/-- Witness for C4 at a concrete packet. -/
theorem readPacket_writePacket_witness :
    Packet.WF (.unconnectedPong 5 9 [77]) = true ∧
    readPacket (writePacket (.unconnectedPong 5 9 [77])) =
      some (.unconnectedPong 5 9 [77]) :=
  ⟨by decide, readPacket_writePacket _ (by decide)⟩

/-- Modelled from the spec: the effective MTU-derived frame capacity of the
FragmentQ (missing module `fragment`) — MTU minus UDP/IP header allowance
(28) minus datagram header (4) minus worst-case frame header (20). -/
def frameCapacity (mtu : Nat) : Nat := mtu - 28 - 4 - 20

/-- Modelled from the spec: divide a payload into consecutive chunks of at
most `C` bytes each (the FragmentQ split step's cutting). -/
def chunks (C : Nat) : Bytes → List Bytes
  | [] => []
  | x :: xs =>
      if C = 0 then [x :: xs]
      else (x :: xs).take C :: chunks C ((x :: xs).drop C)
termination_by l => l.length
decreasing_by
  simp only [List.length_drop, List.length_cons]
  omega

theorem flatten_chunks (C : Nat) (l : Bytes) : (chunks C l).flatten = l := by
  induction l using chunks.induct C with
  | case1 => rw [chunks]; rfl
  | case2 x xs hC => rw [chunks, if_pos hC]; simp
  | case3 x xs hC ih =>
      rw [chunks, if_neg hC]
      simp [ih]

theorem chunks_ne_nil_length (C : Nat) (hC : 0 < C) (l : Bytes) (hl : l ≠ []) :
    (chunks C l).length = (l.length + C - 1) / C := by
  induction l using chunks.induct C with
  | case1 => exact absurd rfl hl
  | case2 x xs hC0 => exact absurd hC0 (by omega)
  | case3 x xs hC0 ih =>
      rw [chunks, if_neg hC0]
      by_cases hd : (x :: xs).drop C = []
      · have hlen : (x :: xs).length ≤ C := by
          have h2 := congrArg List.length hd
          simp only [List.length_drop, List.length_nil] at h2
          simp only [List.length_cons] at h2 ⊢
          omega
        rw [hd]
        have h1 : (x :: xs).length + C - 1 = ((x :: xs).length - 1) + C := by
          simp only [List.length_cons]; omega
        rw [h1, Nat.add_div_right _ hC, Nat.div_eq_of_lt (by
          simp only [List.length_cons] at hlen ⊢; omega)]
        simp [chunks]
      · have hlen : C < (x :: xs).length := by
          by_contra hle
          exact hd (List.drop_eq_nil_of_le (by omega))
        have hrec := ih hd
        simp only [List.length_cons, List.length_drop] at hrec hlen ⊢
        rw [hrec]
        have h1 : xs.length + 1 + C - 1 = (xs.length + 1 - C + C - 1) + C := by
          omega
        rw [h1, Nat.add_div_right _ hC]

/-- Modelled from the spec: the FragmentQ split policy — a payload of length
at most the capacity is one non-split frame; a longer payload becomes
⌈L/C⌉ fragments all carrying the same split-id and split-count with
ascending split-index. -/
def splitPayload (sid C : Nat) (data : Bytes) : List (Bytes × Option SplitInfo) :=
  if data.length ≤ C then [(data, none)]
  else
    (chunks C data).enum.map fun p =>
      (p.2, some ⟨(chunks C data).length, sid, p.1⟩)

/-- Modelled from the spec: the SplitAssembler emits the concatenation of the
fragments in ascending split-index order once every index in
`[0, split-count)` is populated; `frags` holds (split-index, payload). -/
def assembleLoop (frags : List (Nat × Bytes)) : Nat → Nat → Option (List Bytes)
  | _, 0 => some []
  | i, k + 1 =>
      match frags.find? (fun p => p.1 == i) with
      | some q => (assembleLoop frags (i + 1) k).map (q.2 :: ·)
      | none => none

/-- Modelled from the spec: reassembly of a complete fragment set. -/
def assemble (count : Nat) (frags : List (Nat × Bytes)) : Option Bytes :=
  (assembleLoop frags 0 count).map List.flatten

theorem find?_eq_of_perm {α : Type} (p : α → Bool) (l₁ l₂ : List α)
    (hp : l₁.Perm l₂)
    (huniq : ∀ a ∈ l₂, ∀ b ∈ l₂, p a = true → p b = true → a = b) :
    l₁.find? p = l₂.find? p := by
  cases h₁ : l₁.find? p with
  | none =>
      cases h₂ : l₂.find? p with
      | none => rfl
      | some y =>
          have hy := List.mem_of_find?_eq_some h₂
          have hpy := List.find?_some h₂
          have hc : (l₁.find? p).isSome = true :=
            List.find?_isSome.mpr ⟨y, hp.mem_iff.mpr hy, hpy⟩
          rw [h₁] at hc; cases hc
  | some x =>
      have hx := List.mem_of_find?_eq_some h₁
      have hpx := List.find?_some h₁
      cases h₂ : l₂.find? p with
      | none =>
          have hc : (l₂.find? p).isSome = true :=
            List.find?_isSome.mpr ⟨x, hp.mem_iff.mp hx, hpx⟩
          rw [h₂] at hc; cases hc
      | some y =>
          have hy := List.mem_of_find?_eq_some h₂
          have hpy := List.find?_some h₂
          rw [huniq x (hp.mem_iff.mp hx) y hy hpx hpy]

theorem enum_eq_of_fst {cs : List Bytes} {q : Nat × Bytes} (hq : q ∈ cs.enum)
    {i : Nat} (h1 : q.1 = i) (h : i < cs.length) : q = (i, cs.get ⟨i, h⟩) := by
  obtain ⟨q1, q2⟩ := q
  simp only at h1
  subst h1
  have h2 := List.mem_enum_iff_get?.mp hq
  simp only [List.get?_eq_getElem?, List.getElem?_eq_getElem h,
    Option.some.injEq] at h2
  simp [h2, List.get_eq_getElem]

theorem find?_enum (cs : List Bytes) (i : Nat) (h : i < cs.length) :
    cs.enum.find? (fun p => p.1 == i) = some (i, cs.get ⟨i, h⟩) := by
  have hmem : (i, cs.get ⟨i, h⟩) ∈ cs.enum := by
    apply List.mem_enum_iff_get?.mpr
    simp [List.get?_eq_getElem?, List.getElem?_eq_getElem h,
      List.get_eq_getElem]
  have hsome : (cs.enum.find? (fun p => p.1 == i)).isSome = true :=
    List.find?_isSome.mpr ⟨(i, cs.get ⟨i, h⟩), hmem, by simp⟩
  obtain ⟨q, hq⟩ := Option.isSome_iff_exists.mp hsome
  have h1 : q.1 = i := by simpa using List.find?_some hq
  rw [hq, enum_eq_of_fst (List.mem_of_find?_eq_some hq) h1 h]

theorem assembleLoop_complete (cs : List Bytes) (frags : List (Nat × Bytes))
    (hperm : frags.Perm cs.enum) :
    ∀ k s, s + k = cs.length → assembleLoop frags s k = some (cs.drop s) := by
  have hfind : ∀ i (h : i < cs.length),
      frags.find? (fun p => p.1 == i) = some (i, cs.get ⟨i, h⟩) := by
    intro i h
    rw [find?_eq_of_perm _ frags cs.enum hperm ?uq, find?_enum cs i h]
    case uq =>
      intro a ha b hb hpa hpb
      rw [enum_eq_of_fst ha (by simpa using hpa) h,
        enum_eq_of_fst hb (by simpa using hpb) h]
  intro k
  induction k with
  | zero =>
      intro s hs
      rw [assembleLoop]
      rw [show s = cs.length by omega, List.drop_length]
  | succ k ih =>
      intro s hs
      have hslt : s < cs.length := by omega
      rw [assembleLoop, hfind s hslt]
      simp only [ih (s + 1) (by omega), Option.map_some']
      rw [show cs.get ⟨s, hslt⟩ = cs[s] from rfl, List.getElem_cons_drop]

/-- Modelled from the spec: the (split-index, payload) set a complete split
message presents to the SplitAssembler. -/
def fragmentSet (frames : List (Bytes × Option SplitInfo)) :
    List (Nat × Bytes) :=
  frames.map fun f => ((f.2.getD ⟨0, 0, 0⟩).idx, f.1)

theorem fragmentSet_splitPayload (sid C : Nat) (data : Bytes)
    (h : C < data.length) :
    fragmentSet (splitPayload sid C data) = (chunks C data).enum := by
  rw [splitPayload, if_neg (by omega)]
  simp only [fragmentSet, List.map_map]
  have hfun : ((fun f : Bytes × Option SplitInfo =>
        ((f.2.getD ⟨0, 0, 0⟩).idx, f.1)) ∘
      (fun p : Nat × Bytes =>
        (p.2, some (⟨(chunks C data).length, sid, p.1⟩ : SplitInfo)))) =
      fun p : Nat × Bytes => (p.1, p.2) := by
    funext p; rfl
  rw [hfun]
  simp

theorem splitPayload_length_of_long (sid C : Nat) (data : Bytes)
    (h : C < data.length) :
    (splitPayload sid C data).length = (chunks C data).length := by
  rw [splitPayload, if_neg (by omega)]
  simp

/-- C5: for every payload longer than the MTU-derived frame capacity,
splitting it into fragments and then reassembling the complete fragment set
(fragments concatenated in ascending split-index order) yields a
byte-sequence equal to the original payload — for every arrival order of the
fragment set. -/
theorem fragment_reassembly_roundtrip (mtu sid : Nat) (hmtu : 576 ≤ mtu)
    (data : Bytes) (hlong : frameCapacity mtu < data.length)
    (frags : List (Nat × Bytes))
    (hperm : frags.Perm (fragmentSet (splitPayload sid (frameCapacity mtu) data))) :
    assemble (splitPayload sid (frameCapacity mtu) data).length frags =
      some data := by
  rw [fragmentSet_splitPayload sid _ data hlong] at hperm
  rw [assemble, splitPayload_length_of_long sid _ data hlong,
    assembleLoop_complete (chunks (frameCapacity mtu) data) frags hperm
      (chunks (frameCapacity mtu) data).length 0 (by omega)]
  simp [flatten_chunks]

/-- Witness for C5: a 525-byte payload over the minimal MTU 576
(capacity 524) splits and reassembles to itself. -/
theorem fragment_reassembly_roundtrip_witness :
    assemble (splitPayload 0 (frameCapacity 576) (List.replicate 525 7)).length
      (fragmentSet (splitPayload 0 (frameCapacity 576) (List.replicate 525 7))) =
      some (List.replicate 525 7) :=
  fragment_reassembly_roundtrip 576 0 (by decide) (List.replicate 525 7)
    (by rw [List.length_replicate]; decide) _ (List.Perm.refl _)

/-- C6: with capacity C = MTU − 28 − 4 − 20, a payload of length L ≤ C is a
single non-split frame; a longer one produces exactly ⌈L/C⌉ fragments, all
sharing the split-id and split-count, with ascending split-index 0,1,…;
hence length C does not split and length C+1 yields exactly two fragments. -/
theorem splitPayload_spec (mtu sid : Nat) (hmtu : 576 ≤ mtu) (data : Bytes) :
    (data.length ≤ frameCapacity mtu →
      splitPayload sid (frameCapacity mtu) data = [(data, none)]) ∧
    (frameCapacity mtu < data.length →
      (splitPayload sid (frameCapacity mtu) data).length =
        (data.length + frameCapacity mtu - 1) / frameCapacity mtu ∧
      (∀ f ∈ splitPayload sid (frameCapacity mtu) data, ∃ i : Nat,
        f.2 = some ⟨(splitPayload sid (frameCapacity mtu) data).length, sid, i⟩) ∧
      (splitPayload sid (frameCapacity mtu) data).map
          (fun f => (f.2.getD ⟨0, 0, 0⟩).idx) =
        List.range (splitPayload sid (frameCapacity mtu) data).length) ∧
    (data.length = frameCapacity mtu + 1 →
      (splitPayload sid (frameCapacity mtu) data).length = 2) := by
  have hC : 0 < frameCapacity mtu := by
    simp only [frameCapacity]; omega
  have hcount : frameCapacity mtu < data.length →
      (splitPayload sid (frameCapacity mtu) data).length =
        (data.length + frameCapacity mtu - 1) / frameCapacity mtu := by
    intro hlong
    rw [splitPayload_length_of_long sid _ data hlong,
      chunks_ne_nil_length _ hC data (by
        intro hnil; rw [hnil] at hlong; simp at hlong)]
  refine ⟨fun h => by rw [splitPayload, if_pos h], fun hlong => ⟨hcount hlong, ?_, ?_⟩, fun heq => ?_⟩
  · intro f hf
    rw [splitPayload_length_of_long sid _ data hlong]
    rw [splitPayload, if_neg (by omega)] at hf
    simp only [List.mem_map] at hf
    obtain ⟨p, _, hp⟩ := hf
    exact ⟨p.1, by rw [← hp]⟩
  · rw [splitPayload, if_neg (by omega)]
    simp only [List.map_map, List.length_map, List.enum_length]
    have hfun : ((fun f : Bytes × Option SplitInfo =>
          (f.2.getD ⟨0, 0, 0⟩).idx) ∘
        (fun p : Nat × Bytes =>
          (p.2, some (⟨(chunks (frameCapacity mtu) data).length, sid, p.1⟩ :
            SplitInfo)))) = Prod.fst := by
      funext p; rfl
    rw [hfun, List.enum_map_fst]
  · have hlong : frameCapacity mtu < data.length := by omega
    rw [hcount hlong, heq]
    have h2 : frameCapacity mtu + 1 + frameCapacity mtu - 1 =
        2 * frameCapacity mtu := by omega
    rw [h2, Nat.mul_div_cancel 2 hC]

/-- Witness for C6: over the minimal MTU 576 (capacity 524), a 525-byte
payload produces exactly two fragments. -/
theorem splitPayload_spec_witness :
    (splitPayload 0 (frameCapacity 576) (List.replicate 525 7)).length = 2 :=
  (splitPayload_spec 576 0 (by decide) (List.replicate 525 7)).2.2
    (by rw [List.length_replicate]; decide)

/-- Modelled from the spec: the per-channel sequence gate of ARQ-Recv
(missing module `arq`) run over a list of (sequencing-index, payload)
arrivals: a frame whose index is at least the channel's `highest_sequenced`
is delivered and `highest_sequenced` becomes index + 1; lower-indexed
frames are dropped. -/
def seqRun (hi : Nat) : List (Nat × Bytes) → List (Nat × Bytes)
  | [] => []
  | (idx, m) :: rest =>
      if hi ≤ idx then (idx, m) :: seqRun (idx + 1) rest
      else seqRun hi rest

theorem seqRun_ge (arrivals : List (Nat × Bytes)) :
    ∀ hi, ∀ p ∈ seqRun hi arrivals, hi ≤ p.1 := by
  induction arrivals with
  | nil => intro hi p hp; cases hp
  | cons q rest ih =>
      obtain ⟨idx, m⟩ := q
      intro hi p hp
      rw [seqRun] at hp
      by_cases hle : hi ≤ idx
      · rw [if_pos hle] at hp
        rcases List.mem_cons.mp hp with h | h
        · subst h; exact hle
        · exact le_trans (by omega) (ih (idx + 1) p h)
      · rw [if_neg hle] at hp
        exact ih hi p hp

theorem seqRun_strict_mono (arrivals : List (Nat × Bytes)) :
    ∀ hi, List.Pairwise (fun p q : Nat × Bytes => p.1 < q.1)
      (seqRun hi arrivals) := by
  induction arrivals with
  | nil => intro hi; simp [seqRun]
  | cons q rest ih =>
      obtain ⟨idx, m⟩ := q
      intro hi
      rw [seqRun]
      by_cases hle : hi ≤ idx
      · rw [if_pos hle]
        exact List.Pairwise.cons
          (fun p hp => by
            have := seqRun_ge rest (idx + 1) p hp
            omega)
          (ih (idx + 1))
      · rw [if_neg hle]
        exact ih hi

/-- C3: on one channel, the sequence gate delivers ReliableSequenced frames
with strictly increasing (hence monotonically non-decreasing, each at most
once, gaps permitted) sequencing-indices; a frame below `highest_sequenced`
is dropped, and one at or above it is delivered and sets `highest_sequenced`
to its index plus one. -/
theorem sequenced_gate_spec (hi : Nat) (arrivals : List (Nat × Bytes)) :
    List.Pairwise (fun p q : Nat × Bytes => p.1 < q.1) (seqRun hi arrivals) ∧
    (∀ idx m rest, hi ≤ idx →
      seqRun hi ((idx, m) :: rest) = (idx, m) :: seqRun (idx + 1) rest) ∧
    (∀ idx m rest, idx < hi →
      seqRun hi ((idx, m) :: rest) = seqRun hi rest) := by
  refine ⟨seqRun_strict_mono arrivals hi, ?_, ?_⟩
  · intro idx m rest hle
    rw [seqRun, if_pos hle]
  · intro idx m rest hlt
    rw [seqRun, if_neg (by omega)]

/-- Witness for C3 at a concrete arrival list. -/
theorem sequenced_gate_spec_witness :
    List.Pairwise (fun p q : Nat × Bytes => p.1 < q.1)
      (seqRun 0 [(2, [10]), (1, [11]), (5, [12]), (5, [13]), (7, [14])]) ∧
    seqRun 3 [(4, [9])] = [(4, [9])] ∧ seqRun 3 [(2, [9])] = [] :=
  ⟨(sequenced_gate_spec 0 [(2, [10]), (1, [11]), (5, [12]), (5, [13]),
      (7, [14])]).1,
   (sequenced_gate_spec 3 []).2.1 4 [9] [] (by decide),
   (sequenced_gate_spec 3 []).2.2 2 [9] [] (by decide)⟩

/-- Modelled from the spec: ARQ-Recv datagram acceptance state (missing
module `arq`) — the highest-seen datagram-sequence number (`none` before the
first datagram) and the set of received sequence numbers. -/
structure RecvState where
  hiDg : Option Nat
  seen : List Nat
deriving DecidableEq, Repr

/-- Modelled from the spec: datagram acceptance — a number above the highest
seen advances it and delivers; one at or below delivers only if unseen;
duplicates are dropped. -/
def recvStep (st : RecvState) (d : Nat) : RecvState × Bool :=
  match st.hiDg with
  | none => (⟨some d, [d]⟩, true)
  | some hi =>
      if hi < d then (⟨some d, d :: st.seen⟩, true)
      else if d ∈ st.seen then (st, false)
      else (⟨some hi, d :: st.seen⟩, true)

/-- Modelled from the spec: run the acceptance over arriving datagrams
(number, payload), collecting the delivered ones in order. -/
def recvRun (st : RecvState) : List (Nat × Bytes) → List (Nat × Bytes)
  | [] => []
  | (d, m) :: rest =>
      let s := recvStep st d
      if s.2 then (d, m) :: recvRun s.1 rest else recvRun s.1 rest

/-- The mathematical first-occurrence filter on datagram numbers, used as the
reference characterization of the datagram-level dedup. -/
def dedupFirst (seen : List Nat) : List (Nat × Bytes) → List (Nat × Bytes)
  | [] => []
  | p :: rest =>
      if p.1 ∈ seen then dedupFirst seen rest
      else p :: dedupFirst (p.1 :: seen) rest

/-- Well-formedness of the acceptance state: everything in `seen` is at most
the highest-seen number. -/
def RecvState.WF (st : RecvState) : Prop :=
  match st.hiDg with
  | none => st.seen = []
  | some hi => ∀ x ∈ st.seen, x ≤ hi

theorem recvRun_eq_dedupFirst (st : RecvState)
    (arrivals : List (Nat × Bytes)) (hwf : st.WF) :
    recvRun st arrivals = dedupFirst st.seen arrivals := by
  induction arrivals generalizing st with
  | nil => rfl
  | cons q rest ih =>
      obtain ⟨d, m⟩ := q
      obtain ⟨hi, seen⟩ := st
      cases hi with
      | none =>
          have hseen : seen = [] := hwf
          subst hseen
          have hrec := ih ⟨some d, [d]⟩ (by
            intro x hx
            simp only [List.mem_singleton] at hx
            omega)
          simp [recvRun, recvStep, dedupFirst, hrec]
      | some hi =>
          have hwf' : ∀ x ∈ seen, x ≤ hi := hwf
          by_cases hlt : hi < d
          · have hnot : d ∉ seen := fun hm => absurd (hwf' d hm) (by omega)
            have hrec := ih ⟨some d, d :: seen⟩ (by
              intro x hx
              rcases List.mem_cons.mp hx with h | h
              · omega
              · have := hwf' x h; omega)
            simp [recvRun, recvStep, dedupFirst, hlt, hnot, hrec]
          · by_cases hmem : d ∈ seen
            · have hrec := ih ⟨some hi, seen⟩ hwf'
              simp [recvRun, recvStep, dedupFirst, hlt, hmem, hrec]
            · have hrec := ih ⟨some hi, d :: seen⟩ (by
                intro x hx
                rcases List.mem_cons.mp hx with h | h
                · omega
                · exact hwf' x h)
              simp [recvRun, recvStep, dedupFirst, hlt, hmem, hrec]

theorem count_dedupFirst (d : Nat) (m : Bytes) :
    ∀ (arrivals : List (Nat × Bytes)) (seen : List Nat),
    (∀ q ∈ arrivals, q.1 = d → q = (d, m)) →
    List.count (d, m) (dedupFirst seen arrivals) =
      if d ∈ seen then 0
      else if ∃ q ∈ arrivals, q.1 = d then 1 else 0 := by
  intro arrivals
  induction arrivals with
  | nil =>
      intro seen _
      simp [dedupFirst]
  | cons q rest ih =>
      intro seen huniq
      have huniq' : ∀ p ∈ rest, p.1 = d → p = (d, m) :=
        fun p hp => huniq p (List.mem_cons_of_mem q hp)
      rw [dedupFirst]
      by_cases hq1 : q.1 ∈ seen
      · rw [if_pos hq1, ih seen huniq']
        by_cases hqd : q.1 = d
        · rw [hqd] at hq1
          simp [hq1]
        · by_cases hds : d ∈ seen
          · simp [hds]
          · simp only [if_neg hds]
            have hiff : (∃ p ∈ q :: rest, p.1 = d) ↔ ∃ p ∈ rest, p.1 = d := by
              constructor
              · rintro ⟨p, hp, hpd⟩
                rcases List.mem_cons.mp hp with h | h
                · subst h; exact absurd hpd hqd
                · exact ⟨p, h, hpd⟩
              · rintro ⟨p, hp, hpd⟩
                exact ⟨p, List.mem_cons_of_mem q hp, hpd⟩
            rw [if_congr hiff rfl rfl]
      · rw [if_neg hq1]
        by_cases hqd : q.1 = d
        · have hq : q = (d, m) := huniq q (List.mem_cons_self q rest) hqd
          subst hq
          have hq1' : d ∉ seen := by simpa using hq1
          have hex : ∃ p ∈ ((d, m) :: rest : List (Nat × Bytes)), p.1 = d :=
            ⟨(d, m), List.mem_cons_self _ rest, rfl⟩
          simp [List.count_cons, ih (d :: seen) huniq', hq1', hex]
        · have hqne : ¬ (q == (d, m)) = true := by
            simp only [beq_iff_eq]
            exact fun h => hqd (by rw [h])
          have hiff : (∃ p ∈ q :: rest, p.1 = d) ↔ ∃ p ∈ rest, p.1 = d := by
            constructor
            · rintro ⟨p, hp, hpd⟩
              rcases List.mem_cons.mp hp with h | h
              · subst h; exact absurd hpd hqd
              · exact ⟨p, h, hpd⟩
            · rintro ⟨p, hp, hpd⟩
              exact ⟨p, List.mem_cons_of_mem q hp, hpd⟩
          by_cases hds : d ∈ seen
          · have hdin : d ∈ q.1 :: seen := List.mem_cons_of_mem q.1 hds
            simp [List.count_cons, ih (q.1 :: seen) huniq', hdin, hds, hqne]
          · have hdqs : d ∉ q.1 :: seen := by
              intro hmm
              rcases List.mem_cons.mp hmm with h | h
              · exact hqd h.symm
              · exact hds h
            simp only [List.count_cons, ih (q.1 :: seen) huniq', hqne,
              if_false, if_neg hdqs, if_neg hds, Nat.add_zero]
            rw [if_congr hiff rfl rfl]
            simp

/-- C2: each message sent Reliable (its datagram numbers distinct) is, after
datagram-level deduplication, delivered exactly once — hence also at least
once — no matter how often its datagram is received, provided it is received
at least once. -/
theorem reliable_exactly_once (sent : List (Nat × Bytes))
    (hnodup : (sent.map Prod.fst).Nodup)
    (arrivals : List (Nat × Bytes))
    (harr : ∀ q ∈ arrivals, q ∈ sent)
    (hall : ∀ p ∈ sent, p ∈ arrivals) :
    ∀ p ∈ sent, (recvRun ⟨none, []⟩ arrivals).count p = 1 := by
  intro p hp
  obtain ⟨d, m⟩ := p
  rw [recvRun_eq_dedupFirst ⟨none, []⟩ arrivals (by simp [RecvState.WF])]
  rw [count_dedupFirst d m arrivals [] ?huniq]
  case huniq =>
    intro q hq hqd
    have hqs := harr q hq
    exact List.inj_on_of_nodup_map hnodup hqs hp (by simpa using hqd)
  rw [if_neg (by simp)]
  rw [if_pos ⟨(d, m), hall (d, m) hp, rfl⟩]

/-- Witness for C2: the server's `[1,2,3]` Reliable message, its datagram
received twice, is delivered exactly once and the delivered payload is
`[1,2,3]`. -/
theorem reliable_exactly_once_witness :
    (recvRun ⟨none, []⟩ [(0, [1, 2, 3]), (0, [1, 2, 3])]).count
      (0, [1, 2, 3]) = 1 ∧
    (recvRun ⟨none, []⟩ [(0, [1, 2, 3]), (0, [1, 2, 3])]).map Prod.snd =
      [[1, 2, 3]] :=
  ⟨reliable_exactly_once [(0, [1, 2, 3])] (by decide)
      [(0, [1, 2, 3]), (0, [1, 2, 3])] (by decide) (by decide)
      (0, [1, 2, 3]) (by decide),
   by decide⟩

/-- Modelled from the spec: the per-channel ordering gate state of ARQ-Recv
(missing module `arq`) — the next expected ordering-index and the min-heap of
out-of-order frames keyed by ordering-index. -/
structure OrdChannel where
  nextExpected : Nat
  heap : List (Nat × Bytes)
deriving DecidableEq, Repr

/-- Look up the buffered frame with the given ordering-index. -/
def heapLookup (h : List (Nat × Bytes)) (i : Nat) : Option Bytes :=
  (h.find? (fun p => p.1 == i)).map Prod.snd

/-- Remove the buffered frame with the given ordering-index. -/
def heapRemove (h : List (Nat × Bytes)) (i : Nat) : List (Nat × Bytes) :=
  h.filter (fun p => p.1 != i)

/-- Modelled from the spec: after an in-order delivery, any buffered frames
with consecutive indices are flushed; `fuel` bounds the loop (each delivery
removes one heap entry). -/
def ordFlush (fuel next : Nat) (heap : List (Nat × Bytes)) :
    Nat × List (Nat × Bytes) × List Bytes :=
  match fuel with
  | 0 => (next, heap, [])
  | fuel + 1 =>
      match heapLookup heap next with
      | some m =>
          let r := ordFlush fuel (next + 1) (heapRemove heap next)
          (r.1, r.2.1, m :: r.2.2)
      | none => (next, heap, [])

/-- Modelled from the spec: the ordering gate — a frame below the expected
index is dropped (duplicate after retransmit), the expected one is delivered
followed by the consecutive buffered flush, a later one is inserted into the
heap (keyed by index, so a duplicate of a buffered index is ignored). -/
def ordStep (st : OrdChannel) (idx : Nat) (m : Bytes) :
    OrdChannel × List Bytes :=
  if idx < st.nextExpected then (st, [])
  else if idx = st.nextExpected then
    let r := ordFlush st.heap.length (st.nextExpected + 1) st.heap
    (⟨r.1, r.2.1⟩, m :: r.2.2)
  else if (heapLookup st.heap idx).isSome then (st, [])
  else (⟨st.nextExpected, (idx, m) :: st.heap⟩, [])

/-- Modelled from the spec: run the ordering gate over a list of
(ordering-index, payload) arrivals, collecting the delivered payloads. -/
def ordRun (st : OrdChannel) : List (Nat × Bytes) → OrdChannel × List Bytes
  | [] => (st, [])
  | (idx, m) :: rest =>
      let s := ordStep st idx m
      let t := ordRun s.1 rest
      (t.1, s.2 ++ t.2)

/-- The ordering-gate invariant for a stream `msgs`: the expected index never
exceeds the stream length and every buffered frame is a yet-undelivered
element of the stream. -/
def OrdInv (msgs : List Bytes) (st : OrdChannel) : Prop :=
  st.nextExpected ≤ msgs.length ∧
  ∀ p ∈ st.heap, st.nextExpected < p.1 ∧ msgs[p.1]? = some p.2

theorem heapLookup_mem {h : List (Nat × Bytes)} {i : Nat} {m : Bytes}
    (hl : heapLookup h i = some m) : (i, m) ∈ h := by
  rw [heapLookup] at hl
  cases hf : h.find? (fun p => p.1 == i) with
  | none => rw [hf] at hl; cases hl
  | some q =>
      rw [hf] at hl
      simp only [Option.map_some', Option.some.injEq] at hl
      have hq1 : q.1 = i := by simpa using List.find?_some hf
      have hqm := List.mem_of_find?_eq_some hf
      obtain ⟨q1, q2⟩ := q
      simp only at hq1 hl
      rw [← hq1, ← hl]
      exact hqm

theorem heapLookup_isSome_of_mem {h : List (Nat × Bytes)} {p : Nat × Bytes}
    (hp : p ∈ h) : (heapLookup h p.1).isSome = true := by
  have hs : (h.find? (fun q => q.1 == p.1)).isSome = true :=
    List.find?_isSome.mpr ⟨p, hp, by simp⟩
  rw [heapLookup]
  cases hf : h.find? (fun q => q.1 == p.1) with
  | none => rw [hf] at hs; cases hs
  | some q => rfl

theorem ordFlush_spec (msgs : List Bytes) :
    ∀ (fuel : Nat) (heap : List (Nat × Bytes)) (next : Nat),
    heap.length ≤ fuel →
    next ≤ msgs.length →
    (∀ p ∈ heap, next ≤ p.1 ∧ msgs[p.1]? = some p.2) →
    next ≤ (ordFlush fuel next heap).1 ∧
    (ordFlush fuel next heap).1 ≤ msgs.length ∧
    msgs.take next ++ (ordFlush fuel next heap).2.2 =
      msgs.take (ordFlush fuel next heap).1 ∧
    (∀ p ∈ (ordFlush fuel next heap).2.1,
      (ordFlush fuel next heap).1 ≤ p.1 ∧ msgs[p.1]? = some p.2) ∧
    heapLookup (ordFlush fuel next heap).2.1 (ordFlush fuel next heap).1 =
      none ∧
    (∀ p ∈ heap, p ∈ (ordFlush fuel next heap).2.1 ∨
      p.1 < (ordFlush fuel next heap).1) := by
  intro fuel
  induction fuel with
  | zero =>
      intro heap next hf hn hheap
      have hnil : heap = [] := List.length_eq_zero.mp (by omega)
      subst hnil
      refine ⟨le_refl _, hn, by simp [ordFlush], ?_, rfl, ?_⟩
      · intro p hp; cases hp
      · intro p hp; cases hp
  | succ fuel ih =>
      intro heap next hf hn hheap
      cases hl : heapLookup heap next with
      | none =>
          rw [ordFlush, hl]
          exact ⟨le_refl _, hn, by simp, hheap, hl, fun p hp => Or.inl hp⟩
      | some m =>
          have hmem : (next, m) ∈ heap := heapLookup_mem hl
          have hget : msgs[next]? = some m := (hheap (next, m) hmem).2
          have hnlt : next < msgs.length := (List.getElem?_eq_some.mp hget).1
          have hrem : (heapRemove heap next).length < heap.length := by
            rw [heapRemove]
            exact List.length_filter_lt_length_iff_exists.mpr
              ⟨(next, m), hmem, by simp⟩
          have hrheap : ∀ p ∈ heapRemove heap next,
              next + 1 ≤ p.1 ∧ msgs[p.1]? = some p.2 := by
            intro p hp
            rw [heapRemove, List.mem_filter] at hp
            obtain ⟨hpm, hpne⟩ := hp
            have := hheap p hpm
            have hne : p.1 ≠ next := by simpa using hpne
            exact ⟨by omega, this.2⟩
          have hrec := ih (heapRemove heap next) (next + 1) (by omega)
            (by omega) hrheap
          have heq : ordFlush (fuel + 1) next heap =
              ((ordFlush fuel (next + 1) (heapRemove heap next)).1,
               (ordFlush fuel (next + 1) (heapRemove heap next)).2.1,
               m :: (ordFlush fuel (next + 1) (heapRemove heap next)).2.2) := by
            rw [ordFlush, hl]
          simp only [heq]
          obtain ⟨ha, hb, hc, hd, he, hg⟩ := hrec
          refine ⟨by omega, hb, ?_, hd, he, ?_⟩
          · have htake : msgs.take (next + 1) = msgs.take next ++ [m] := by
              rw [List.take_succ, hget]; rfl
            calc msgs.take next ++ m ::
                  (ordFlush fuel (next + 1) (heapRemove heap next)).2.2
                = (msgs.take next ++ [m]) ++
                  (ordFlush fuel (next + 1) (heapRemove heap next)).2.2 := by
                  simp
              _ = msgs.take (next + 1) ++
                  (ordFlush fuel (next + 1) (heapRemove heap next)).2.2 := by
                  rw [htake]
              _ = msgs.take
                  (ordFlush fuel (next + 1) (heapRemove heap next)).1 := hc
          · intro p hp
            by_cases hpn : p.1 = next
            · right; omega
            · have hpf : p ∈ heapRemove heap next := by
                rw [heapRemove, List.mem_filter]
                exact ⟨hp, by simpa using hpn⟩
              exact hg p hpf

theorem heapLookup_cons_isSome {h : List (Nat × Bytes)} {i : Nat}
    (q : Nat × Bytes) (hs : (heapLookup h i).isSome = true) :
    (heapLookup (q :: h) i).isSome = true := by
  rw [heapLookup] at hs ⊢
  rw [List.find?_cons]
  cases hq : (q.1 == i) with
  | true => simp [hq]
  | false => exact hs

theorem ordStep_spec (msgs : List Bytes) (st : OrdChannel) (idx : Nat)
    (m : Bytes) (hinv : OrdInv msgs st) (hidx : msgs[idx]? = some m) :
    OrdInv msgs (ordStep st idx m).1 ∧
    msgs.take st.nextExpected ++ (ordStep st idx m).2 =
      msgs.take (ordStep st idx m).1.nextExpected ∧
    st.nextExpected ≤ (ordStep st idx m).1.nextExpected ∧
    (idx < (ordStep st idx m).1.nextExpected ∨
      (heapLookup (ordStep st idx m).1.heap idx).isSome = true) ∧
    (∀ i, (i < st.nextExpected ∨ (heapLookup st.heap i).isSome = true) →
      (i < (ordStep st idx m).1.nextExpected ∨
        (heapLookup (ordStep st idx m).1.heap i).isSome = true)) := by
  obtain ⟨hn, hheap⟩ := hinv
  have hidxlt : idx < msgs.length := (List.getElem?_eq_some.mp hidx).1
  by_cases h1 : idx < st.nextExpected
  · have heq : ordStep st idx m = (st, []) := by rw [ordStep, if_pos h1]
    simp only [heq]
    exact ⟨⟨hn, hheap⟩, by simp, le_refl _, Or.inl h1, fun i hi => hi⟩
  · by_cases h2 : idx = st.nextExpected
    · have heq : ordStep st idx m =
          (⟨(ordFlush st.heap.length (st.nextExpected + 1) st.heap).1,
            (ordFlush st.heap.length (st.nextExpected + 1) st.heap).2.1⟩,
           m :: (ordFlush st.heap.length (st.nextExpected + 1) st.heap).2.2) := by
        rw [ordStep, if_neg h1, if_pos h2]
      have hfheap : ∀ p ∈ st.heap,
          st.nextExpected + 1 ≤ p.1 ∧ msgs[p.1]? = some p.2 := by
        intro p hp
        have := hheap p hp
        exact ⟨by omega, this.2⟩
      obtain ⟨ha, hb, hc, hd, he, hg⟩ :=
        ordFlush_spec msgs st.heap.length st.heap (st.nextExpected + 1)
          (le_refl _) (by omega) hfheap
      simp only [heq]
      refine ⟨⟨hb, ?_⟩, ?_, by omega,
        Or.inl (show idx <
          (ordFlush st.heap.length (st.nextExpected + 1) st.heap).1 by
          omega), ?_⟩
      · intro p hp
        have hdp := hd p hp
        have hne : p.1 ≠
            (ordFlush st.heap.length (st.nextExpected + 1) st.heap).1 := by
          intro hcontra
          have hsm := heapLookup_isSome_of_mem hp
          rw [hcontra, he] at hsm
          cases hsm
        refine ⟨?_, hdp.2⟩
        show (ordFlush st.heap.length (st.nextExpected + 1) st.heap).1 < p.1
        omega
      · have htake : msgs.take (st.nextExpected + 1) =
            msgs.take st.nextExpected ++ [m] := by
          rw [List.take_succ, ← h2, hidx]; rfl
        calc msgs.take st.nextExpected ++ m ::
              (ordFlush st.heap.length (st.nextExpected + 1) st.heap).2.2
            = (msgs.take st.nextExpected ++ [m]) ++
              (ordFlush st.heap.length (st.nextExpected + 1) st.heap).2.2 := by
              simp
          _ = msgs.take (st.nextExpected + 1) ++
              (ordFlush st.heap.length (st.nextExpected + 1) st.heap).2.2 := by
              rw [htake]
          _ = _ := hc
      · intro i hi
        rcases hi with hi | hi
        · exact Or.inl (by omega)
        · obtain ⟨m', hm'⟩ := Option.isSome_iff_exists.mp hi
          have hmem := heapLookup_mem hm'
          rcases hg (i, m') hmem with hin | hlt
          · exact Or.inr (heapLookup_isSome_of_mem hin)
          · exact Or.inl hlt
    · by_cases h3 : (heapLookup st.heap idx).isSome = true
      · have heq : ordStep st idx m = (st, []) := by
          rw [ordStep, if_neg h1, if_neg h2, if_pos h3]
        simp only [heq]
        exact ⟨⟨hn, hheap⟩, by simp, le_refl _, Or.inr h3, fun i hi => hi⟩
      · have heq : ordStep st idx m =
            (⟨st.nextExpected, (idx, m) :: st.heap⟩, []) := by
          rw [ordStep, if_neg h1, if_neg h2, if_neg h3]
        simp only [heq]
        refine ⟨⟨hn, ?_⟩, by simp, le_refl _, ?_, ?_⟩
        · intro p hp
          rcases List.mem_cons.mp hp with h | h
          · subst h
            exact ⟨show st.nextExpected < idx by omega, hidx⟩
          · exact hheap p h
        · exact Or.inr (heapLookup_isSome_of_mem
            (List.mem_cons_self (idx, m) st.heap))
        · intro i hi
          rcases hi with hi | hi
          · exact Or.inl hi
          · exact Or.inr (heapLookup_cons_isSome (idx, m) hi)

theorem ordRun_spec (msgs : List Bytes) :
    ∀ (arrivals : List (Nat × Bytes)) (st : OrdChannel),
    OrdInv msgs st →
    (∀ p ∈ arrivals, msgs[p.1]? = some p.2) →
    OrdInv msgs (ordRun st arrivals).1 ∧
    msgs.take st.nextExpected ++ (ordRun st arrivals).2 =
      msgs.take (ordRun st arrivals).1.nextExpected ∧
    st.nextExpected ≤ (ordRun st arrivals).1.nextExpected ∧
    (∀ p ∈ arrivals, p.1 < (ordRun st arrivals).1.nextExpected ∨
      (heapLookup (ordRun st arrivals).1.heap p.1).isSome = true) ∧
    (∀ i, (i < st.nextExpected ∨ (heapLookup st.heap i).isSome = true) →
      (i < (ordRun st arrivals).1.nextExpected ∨
        (heapLookup (ordRun st arrivals).1.heap i).isSome = true)) := by
  intro arrivals
  induction arrivals with
  | nil =>
      intro st hinv _
      exact ⟨hinv, by simp [ordRun], le_refl _, fun p hp => absurd hp
        (List.not_mem_nil p), fun i hi => hi⟩
  | cons q rest ih =>
      intro st hinv harr
      obtain ⟨idx, m⟩ := q
      have hidx : msgs[idx]? = some m :=
        harr (idx, m) (List.mem_cons_self _ rest)
      have harr' : ∀ p ∈ rest, msgs[p.1]? = some p.2 :=
        fun p hp => harr p (List.mem_cons_of_mem _ hp)
      obtain ⟨sinv, sdel, sle, siv, sv⟩ :=
        ordStep_spec msgs st idx m hinv hidx
      obtain ⟨rinv, rdel, rle, riv, rv⟩ :=
        ih (ordStep st idx m).1 sinv harr'
      have heq : ordRun st ((idx, m) :: rest) =
          ((ordRun (ordStep st idx m).1 rest).1,
           (ordStep st idx m).2 ++ (ordRun (ordStep st idx m).1 rest).2) := by
        rw [ordRun]
      simp only [heq]
      refine ⟨rinv, ?_, by omega, ?_, ?_⟩
      · calc msgs.take st.nextExpected ++
              ((ordStep st idx m).2 ++ (ordRun (ordStep st idx m).1 rest).2)
            = (msgs.take st.nextExpected ++ (ordStep st idx m).2) ++
              (ordRun (ordStep st idx m).1 rest).2 := by
              rw [List.append_assoc]
          _ = msgs.take (ordStep st idx m).1.nextExpected ++
              (ordRun (ordStep st idx m).1 rest).2 := by rw [sdel]
          _ = _ := rdel
      · intro p hp
        rcases List.mem_cons.mp hp with h | h
        · subst h
          exact rv idx siv
        · exact riv p h
      · intro i hi
        exact rv i (sv i hi)

/-- C1: for a ReliableOrdered stream on one ordering channel, if every sent
message eventually arrives at least once (which reliable retransmission
guarantees for any loss rate below 100%, in particular ≤ 90%), then the
ordering gate delivers exactly the sent sequence — same messages, same
order, no duplicates, no gaps — for every arrival order and duplication
pattern. -/
theorem reliable_ordered_exact (msgs : List Bytes)
    (arrivals : List (Nat × Bytes))
    (harr : ∀ p ∈ arrivals, msgs[p.1]? = some p.2)
    (hall : ∀ i, i < msgs.length → i ∈ arrivals.map Prod.fst) :
    (ordRun ⟨0, []⟩ arrivals).2 = msgs := by
  have hinv0 : OrdInv msgs ⟨0, []⟩ :=
    ⟨Nat.zero_le _, by intro p hp; cases hp⟩
  obtain ⟨hinv, hdel, hle, hiv, hv⟩ :=
    ordRun_spec msgs arrivals ⟨0, []⟩ hinv0 harr
  have hout : (ordRun ⟨0, []⟩ arrivals).2 =
      msgs.take (ordRun ⟨0, []⟩ arrivals).1.nextExpected := by
    simpa using hdel
  have hnext : (ordRun ⟨0, []⟩ arrivals).1.nextExpected = msgs.length := by
    rcases Nat.lt_or_ge (ordRun ⟨0, []⟩ arrivals).1.nextExpected
      msgs.length with hlt | hge
    · exfalso
      obtain ⟨p, hp, hp1⟩ := List.mem_map.mp
        (hall (ordRun ⟨0, []⟩ arrivals).1.nextExpected hlt)
      have hpv := hiv p hp
      rw [hp1] at hpv
      rcases hpv with h | h
      · omega
      · obtain ⟨m, hm⟩ := Option.isSome_iff_exists.mp h
        have hmem := heapLookup_mem hm
        have := hinv.2 _ hmem
        omega
    · have := hinv.1; omega
  rw [hout, hnext, List.take_length]

/-- Witness for C1: three messages arriving out of order with a duplicate
are delivered exactly in the sent order. -/
theorem reliable_ordered_exact_witness :
    (∀ p ∈ ([(1, [2]), (0, [1]), (2, [3]), (1, [2])] : List (Nat × Bytes)),
      ([[1], [2], [3]] : List Bytes)[p.1]? = some p.2) ∧
    (ordRun ⟨0, []⟩ [(1, [2]), (0, [1]), (2, [3]), (1, [2])]).2 =
      [[1], [2], [3]] :=
  ⟨by decide,
   reliable_ordered_exact [[1], [2], [3]]
     [(1, [2]), (0, [1]), (2, [3]), (1, [2])] (by decide) (by decide)⟩

/-- Modelled from the spec: per-connection state relevant to inbound
dispatch (missing module `socket`): the datagram acceptance state, one
ordering channel, and the closed flag. -/
structure ConnState where
  recv : RecvState
  ord : OrdChannel
  closed : Bool
deriving DecidableEq, Repr

/-- Modelled from the spec: apply one successfully parsed packet to the
connection — datagrams go through datagram acceptance and the ordering gate,
a DisconnectionNotification closes the connection. -/
def applyPacket (st : ConnState) (p : Packet) : ConnState × List Bytes :=
  match p with
  | .datagram _ seq frames =>
      let s := recvStep st.recv seq
      if s.2 then
        let r := frames.foldl (fun acc f =>
          match f.ordered with
          | some (oi, _) =>
              let t := ordStep acc.1 oi f.payload
              (t.1, acc.2 ++ t.2)
          | none => (acc.1, acc.2 ++ [f.payload])) (st.ord, [])
        (⟨s.1, r.1, st.closed⟩, r.2)
      else (⟨s.1, st.ord, st.closed⟩, [])
  | .disconnectionNotification => (⟨st.recv, st.ord, true⟩, [])
  | _ => (st, [])

/-- Modelled from the spec: the recv-dispatch boundary — an inbound datagram
that fails to parse (`PacketParseError`) is logged and dropped; it is never
surfaced to the application. -/
def dispatchDatagram (st : ConnState) (bytes : Bytes) :
    ConnState × List Bytes :=
  match readPacket bytes with
  | some p => applyPacket st p
  | none => (st, [])

/-- C7: for every inbound datagram that fails to parse, the dispatch drops
it and continues — the connection state is unchanged and nothing is
delivered to the application through recv(). -/
theorem parse_failure_swallowed (st : ConnState) (bytes : Bytes)
    (h : readPacket bytes = none) :
    dispatchDatagram st bytes = (st, []) := by
  rw [dispatchDatagram, h]

/-- Witness for C7: a truncated OpenConnectionRequest1 (bad magic) is
dropped without touching the connection state. -/
theorem parse_failure_swallowed_witness :
    readPacket [0x05] = none ∧
    dispatchDatagram ⟨⟨none, []⟩, ⟨0, []⟩, false⟩ [0x05] =
      (⟨⟨none, []⟩, ⟨0, []⟩, false⟩, []) :=
  ⟨by decide, parse_failure_swallowed ⟨⟨none, []⟩, ⟨0, []⟩, false⟩ [0x05]
    (by decide)⟩

/-- Modelled from the spec: the RTT estimator of ARQ-Send (missing module
`arq`): smoothed RTT and RTT variance (milliseconds). -/
structure RttState where
  srtt : Nat
  rttvar : Nat
deriving DecidableEq, Repr

/-- Modelled from the spec: RTO = SRTT + max(G, K·RTTVAR), clamped to
[50 ms, 3000 ms]. -/
def rto (G K : Nat) (st : RttState) : Nat :=
  min 3000 (max 50 (st.srtt + max G (K * st.rttvar)))

/-- Modelled from the spec: an unacked send record's retransmission-relevant
fields — last-send timestamp and resend count. -/
structure SendRecord where
  lastSend : Nat
  resendCount : Nat
deriving DecidableEq, Repr

/-- Modelled from the spec: retransmitting an unacked record at time `now`
resets the last-send timestamp and increments the resend count; the RTT
estimator is left untouched. -/
def retransmit (est : RttState) (rec : SendRecord) (now : Nat) :
    RttState × SendRecord :=
  (est, ⟨now, rec.resendCount + 1⟩)

/-- Iterate retransmission at the given sequence of times. -/
def retransmitN (est : RttState) (rec : SendRecord) :
    List Nat → RttState × SendRecord
  | [] => (est, rec)
  | t :: ts => retransmitN (retransmit est rec t).1 (retransmit est rec t).2 ts

/-- C8: after any number of retransmissions the RTO is not doubled — the
estimator is untouched, so the RTO stays SRTT + max(G, K·RTTVAR) clamped to
[50 ms, 3000 ms]; only the record's last-send timestamp is reset (and its
resend count incremented). -/
theorem rto_not_doubled (G K : Nat) (est : RttState) (rec : SendRecord)
    (times : List Nat) :
    (retransmitN est rec times).1 = est ∧
    rto G K (retransmitN est rec times).1 =
      min 3000 (max 50 (est.srtt + max G (K * est.rttvar))) ∧
    rto G K (retransmitN est rec times).1 = rto G K est ∧
    (retransmitN est rec times).2.lastSend = times.getLastD rec.lastSend ∧
    (retransmitN est rec times).2.resendCount =
      rec.resendCount + times.length := by
  induction times generalizing rec with
  | nil => exact ⟨rfl, rfl, rfl, rfl, rfl⟩
  | cons t ts ih =>
      obtain ⟨h1, h2, h3, h4, h5⟩ := ih ⟨t, rec.resendCount + 1⟩
      have hr : retransmitN est rec (t :: ts) =
          retransmitN est ⟨t, rec.resendCount + 1⟩ ts := rfl
      rw [hr]
      refine ⟨h1, h2, h3, ?_, ?_⟩
      · rw [h4, List.getLastD_cons]
      · rw [h5]
        show rec.resendCount + 1 + ts.length =
          rec.resendCount + (t :: ts).length
        simp only [List.length_cons]
        omega

/-- Modelled from the spec: the client-side handshake state machine
(missing module `socket`). -/
inductive ConnectionState where
  | connecting1
  | connecting2
  | connecting3
  | connected
  | disconnecting
  | disconnected
deriving DecidableEq, Repr

/-- Modelled from the spec: handshake progress on the server's replies —
Connecting1 → Connecting2 on OpenConnectionReply1, Connecting2 →
Connecting3 on OpenConnectionReply2, Connecting3 → Connected on
ConnectionRequestAccepted. -/
def handshakeStep (s : ConnectionState) (p : Packet) : ConnectionState :=
  match s, p with
  | .connecting1, .openConnectionReply1 _ _ => .connecting2
  | .connecting2, .openConnectionReply2 _ _ _ => .connecting3
  | .connecting3, .connectionRequestAccepted _ _ _ _ => .connected
  | s, _ => s

/-- A connected RakNet socket: its bound local address and peer address. -/
structure RaknetSocket where
  localAddr : Addr
  peerAddr : Addr
deriving DecidableEq, Repr

/-- Modelled from the spec: `connect(addr)` performs the offline+online
handshake against the peer's replies and, on completion, returns a socket to
`target`; otherwise it fails (`ConnectionTimeout`, modelled `none`). -/
def connect (localA target : Addr) (replies : List Packet) :
    Option RaknetSocket :=
  if replies.foldl handshakeStep .connecting1 = .connected then
    some ⟨localA, target⟩
  else none

/-- The listener, bound to one UDP socket. -/
structure RaknetListener where
  localAddr : Addr
deriving DecidableEq, Repr

/-- Modelled from the spec: `accept()` surfaces a fully-handshaken inbound
connection, which lives on the listener's own bound socket. -/
def accept (listener : RaknetListener) (peer : Addr)
    (handshakeDone : Bool) : Option RaknetSocket :=
  if handshakeDone then some ⟨listener.localAddr, peer⟩ else none

/-- C10: every successful connect(addr) returns a socket whose peer address
is addr (and whose local address is the bound one), and every connection a
listener's accept() returns has the listener's local address. -/
theorem addr_contract (localA target : Addr) (replies : List Packet)
    (listener : RaknetListener) (peer : Addr) (handshakeDone : Bool) :
    (∀ s, connect localA target replies = some s →
      s.peerAddr = target ∧ s.localAddr = localA) ∧
    (∀ s, accept listener peer handshakeDone = some s →
      s.localAddr = listener.localAddr) := by
  constructor
  · intro s hs
    rw [connect] at hs
    by_cases hc : replies.foldl handshakeStep .connecting1 = .connected
    · rw [if_pos hc] at hs
      cases hs
      exact ⟨rfl, rfl⟩
    · rw [if_neg hc] at hs
      cases hs
  · intro s hs
    rw [accept] at hs
    cases handshakeDone with
    | true =>
        rw [if_pos rfl] at hs
        cases hs
        rfl
    | false =>
        rw [if_neg (by simp)] at hs
        cases hs

/-- Witness for C10: a successful three-reply handshake yields a socket with
the requested peer address, and an accepted connection carries the
listener's local address. -/
theorem addr_contract_witness :
    RaknetSocket.peerAddr ⟨⟨127, 0, 0, 1, 1000⟩, ⟨127, 0, 0, 1, 2000⟩⟩ =
      ⟨127, 0, 0, 1, 2000⟩ ∧
    RaknetSocket.localAddr ⟨⟨127, 0, 0, 1, 1000⟩, ⟨127, 0, 0, 1, 9000⟩⟩ =
      ⟨127, 0, 0, 1, 1000⟩ :=
  ⟨((addr_contract ⟨127, 0, 0, 1, 1000⟩ ⟨127, 0, 0, 1, 2000⟩
      [.openConnectionReply1 7 1400,
       .openConnectionReply2 7 ⟨127, 0, 0, 1, 1000⟩ 1400,
       .connectionRequestAccepted ⟨127, 0, 0, 1, 1000⟩ [] 0 0]
      ⟨⟨127, 0, 0, 1, 1000⟩⟩ ⟨127, 0, 0, 1, 9000⟩ true).1
      ⟨⟨127, 0, 0, 1, 1000⟩, ⟨127, 0, 0, 1, 2000⟩⟩ (by decide)).1,
   (addr_contract ⟨127, 0, 0, 1, 1000⟩ ⟨127, 0, 0, 1, 2000⟩
      [] ⟨⟨127, 0, 0, 1, 1000⟩⟩ ⟨127, 0, 0, 1, 9000⟩ true).2
      ⟨⟨127, 0, 0, 1, 1000⟩, ⟨127, 0, 0, 1, 9000⟩⟩ (by decide)⟩

end RakNet
